import Mathlib

/-!
Verification of the Tetris rules engine (React/TypeScript source:
`src/hooks/useTetris.ts`, `src/types/tetris.ts`, driven by `src/App.tsx`).

The board/piece primitives are pure functions and are embedded directly.
The engine is a React hook holding one `GameState` value updated through
`setGameState`; commands are `useCallback` closures over the state snapshot
of the render in which they were created.  The embedding makes that snapshot
explicit: every command is a function from the session to the session, and
the functional updaters passed to `setGameState` are applied in order, each
reading computed values from the captured snapshot (not from the evolving
state).  The `setTimeout` deferred commit of the line-clear branch is
modelled as a queue of pending commits carried next to the game state; a
`firePending` step applies the oldest one (timeouts share the same fixed
delay, so they fire in scheduling order).  Randomness (`getRandomTetromino`)
is modelled by an oracle argument: every command that draws a piece takes
the drawn piece as a parameter, and the step relation restricts drawn
pieces to the seven-piece catalog that `getRandomTetromino` selects from.
-/

/-- Width of the game board in cells (`BOARD_WIDTH = 10`). -/
def BOARD_WIDTH : Nat := 10

/-- Height of the game board in cells (`BOARD_HEIGHT = 20`). -/
def BOARD_HEIGHT : Nat := 20

/-- Valid Tetromino piece types following standard Tetris notation. -/
inductive TetrominoType where
  | I | O | T | S | Z | J | L
deriving DecidableEq

/-- A Tetris piece: shape matrix (1 = filled cell), type, and CSS color. -/
structure Tetromino where
  shape : List (List Nat)
  type : TetrominoType
  color : String
deriving DecidableEq

/-- A position on the board.  TypeScript numbers may go negative during
validation, so both coordinates are integers. -/
structure Position where
  row : Int
  col : Int
deriving DecidableEq

/-- A game board: rows of cells, 0 = empty, nonzero (always 1) = filled. -/
abbrev Board := List (List Nat)

/-- `TETROMINOES`: the static shape catalog keyed by piece type. -/
def TETROMINOES : TetrominoType → Tetromino
  | .I => { shape := [[0, 0, 0, 0], [1, 1, 1, 1], [0, 0, 0, 0], [0, 0, 0, 0]],
            type := .I, color := "#00f0f0" }
  | .O => { shape := [[1, 1], [1, 1]], type := .O, color := "#f0f000" }
  | .T => { shape := [[0, 1, 0], [1, 1, 1], [0, 0, 0]], type := .T, color := "#a000f0" }
  | .S => { shape := [[0, 1, 1], [1, 1, 0], [0, 0, 0]], type := .S, color := "#00f000" }
  | .Z => { shape := [[1, 1, 0], [0, 1, 1], [0, 0, 0]], type := .Z, color := "#f00000" }
  | .J => { shape := [[1, 0, 0], [1, 1, 1], [0, 0, 0]], type := .J, color := "#0000f0" }
  | .L => { shape := [[0, 0, 1], [1, 1, 1], [0, 0, 0]], type := .L, color := "#f0a000" }

/-- The seven catalog pieces, in the key order of the `TETROMINOES` object.
`getRandomTetromino` picks uniformly from this list. -/
def tetrominoList : List Tetromino :=
  [TETROMINOES .I, TETROMINOES .O, TETROMINOES .T, TETROMINOES .S,
   TETROMINOES .Z, TETROMINOES .J, TETROMINOES .L]

/-- `createEmptyBoard`: a `BOARD_HEIGHT × BOARD_WIDTH` grid of zeros. -/
def createEmptyBoard : Board :=
  List.replicate BOARD_HEIGHT (List.replicate BOARD_WIDTH 0)

/-- `isValidMove(board, piece, position)`: the source iterates over every
shape cell and returns `false` as soon as a filled cell falls outside
`[0,BOARD_HEIGHT)×[0,BOARD_WIDTH)` or lands on a truthy (nonzero) board
cell; otherwise it returns `true`.  The loop is rendered as a bounded
universal over the shape indices, with the early-return condition negated.
Out-of-range list reads are 0 (JS reads them only after the bounds checks
pass, so on a `BOARD_HEIGHT`-row board of `BOARD_WIDTH`-cell rows the two
coincide exactly). -/
def isValidMove (board : Board) (piece : Tetromino) (position : Position) : Bool :=
  decide (∀ row < piece.shape.length, ∀ col < (piece.shape.getD row []).length,
    (piece.shape.getD row []).getD col 0 ≠ 0 →
      0 ≤ position.row + row ∧ position.row + row < (BOARD_HEIGHT : Int) ∧
      0 ≤ position.col + col ∧ position.col + col < (BOARD_WIDTH : Int) ∧
      (board.getD (position.row + row).toNat []).getD (position.col + col).toNat 0 = 0)

/-- `rotatePiece(piece)`: `piece.shape[0].map((_, index) =>
piece.shape.map(row => row[index]).reverse())`, i.e. a new piece with the
same type and color whose shape is the clockwise transform. -/
def rotatePiece (piece : Tetromino) : Tetromino :=
  { piece with shape :=
      (List.range (piece.shape.headD []).length).map fun index =>
        (piece.shape.map fun row => row.getD index 0).reverse }

/-- Does some filled shape cell of `piece` at `pos` land on board cell
`(r, c)`?  Mirrors the assignment loop of `mergePieceWithBoard`. -/
def pieceCovers (piece : Tetromino) (pos : Position) (r c : Nat) : Bool :=
  decide (∃ i < piece.shape.length, ∃ j < (piece.shape.getD i []).length,
    (piece.shape.getD i []).getD j 0 ≠ 0 ∧
    pos.row + i = (r : Int) ∧ pos.col + j = (c : Int))

/-- Indexed map, used to render the copy-then-assign loop of
`mergePieceWithBoard` functionally. -/
def mapIdxFrom (f : Nat → α → β) : Nat → List α → List β
  | _, [] => []
  | i, a :: as => f i a :: mapIdxFrom f (i + 1) as

/-- `mergePieceWithBoard(board, piece, position)`: a copy of `board` with
every in-bounds filled shape cell set to 1.  The source's explicit
`0 ≤ newRow < BOARD_HEIGHT` / `0 ≤ newCol < BOARD_WIDTH` guards coincide,
on a `BOARD_HEIGHT × BOARD_WIDTH` board, with the cell existing in the
grid, which is what the indexed map expresses. -/
def mergePieceWithBoard (board : Board) (piece : Tetromino) (position : Position) : Board :=
  mapIdxFrom (fun r rowList =>
    mapIdxFrom (fun c cell => if pieceCovers piece position r c then 1 else cell) 0 rowList)
    0 board

/-- Result record of `clearLines`. -/
structure ClearResult where
  newBoard : Board
  linesCleared : Nat
  clearedRows : List Nat
deriving DecidableEq

/-- `row.every(cell => cell === 1)`: a full row. -/
def isFullRow (row : List Nat) : Bool :=
  row.all fun cell => cell == 1

/-- `clearLines(board)`: records the indices of full rows (top to bottom,
against the input board), drops the full rows, and prepends
`BOARD_HEIGHT - remaining` empty rows. -/
def clearLines (board : Board) : ClearResult :=
  let clearedRows := (List.range board.length).filter fun i => isFullRow (board.getD i [])
  let kept := board.filter fun row => !(isFullRow row)
  let linesCleared := BOARD_HEIGHT - kept.length
  { clearedRows := clearedRows
    newBoard := List.replicate linesCleared (List.replicate BOARD_WIDTH 0) ++ kept
    linesCleared := linesCleared }

/-- The session state held by the `useTetris` hook. -/
structure GameState where
  isPaused : Bool
  board : Board
  currentPiece : Tetromino
  currentPosition : Position
  nextPiece : Tetromino
  score : Nat
  isGameOver : Bool
deriving DecidableEq

/-- The data captured by the `setTimeout` closure of the line-clear branch
of `moveDown`: everything the deferred `setGameState` writes except the
fresh `nextPiece`, which is drawn when the callback runs. -/
structure PendingCommit where
  board : Board
  currentPiece : Tetromino
  currentPosition : Position
  score : Nat
  isGameOver : Bool
deriving DecidableEq

/-- A session: the published game state plus the queue of scheduled
phase-2 commits (oldest first; all timeouts use the same 800ms delay, so
they fire in scheduling order). -/
structure Session where
  gs : GameState
  pending : List PendingCommit
deriving DecidableEq

/-- The spawn position `{ row: 0, col: Math.floor(BOARD_WIDTH / 2) - 1 }`. -/
def spawnPosition : Position :=
  { row := 0, col := (BOARD_WIDTH : Int) / 2 - 1 }

/-- The delay (ms) passed to `setTimeout` for the phase-2 commit. -/
def phase2DelayMs : Nat := 800

/-- The initial `useState` value / the state installed by `resetGame`,
with the two random draws supplied by the oracle. -/
def initGameState (p q : Tetromino) : GameState :=
  { isPaused := false
    board := createEmptyBoard
    currentPiece := p
    currentPosition := spawnPosition
    nextPiece := q
    score := 0
    isGameOver := false }

/-- A fresh session (no pending timeouts). -/
def initSession (p q : Tetromino) : Session :=
  { gs := initGameState p q, pending := [] }

/-- The body of `moveDown` after its guard, as invoked with captured
snapshot `snap`.  The queued `setGameState(prev => ...)` updaters are
applied to the accumulated session `sess`; every written value is computed
from `snap`, and the `...prev` spread preserves the remaining fields of
the accumulated state, exactly as in the source.  `p` is the oracle draw
for `getRandomTetromino()` in the immediate-commit branch. -/
def moveDownBody (snap : GameState) (sess : Session) (p : Tetromino) : Session :=
  let newPosition : Position :=
    { snap.currentPosition with row := snap.currentPosition.row + 1 }
  if isValidMove snap.board snap.currentPiece newPosition then
    { sess with gs := { sess.gs with currentPosition := newPosition } }
  else
    let newBoard := mergePieceWithBoard snap.board snap.currentPiece snap.currentPosition
    let res := clearLines newBoard
    if res.clearedRows.length > 0 then
      { gs := { sess.gs with board := newBoard }
        pending := sess.pending ++
          [{ board := res.newBoard
             currentPiece := snap.nextPiece
             currentPosition := spawnPosition
             score := snap.score + res.linesCleared * 100
             isGameOver := !(isValidMove res.newBoard snap.nextPiece spawnPosition) }] }
    else
      { sess with gs :=
          { sess.gs with
              board := res.newBoard
              currentPiece := snap.nextPiece
              currentPosition := spawnPosition
              nextPiece := p
              score := snap.score + res.linesCleared * 100
              isGameOver := !(isValidMove res.newBoard snap.nextPiece spawnPosition) } }

/-- `moveDown()` as the closure over snapshot `snap` would run: early
return under the captured flags, else the landing/soft-drop body. -/
def moveDownWith (snap : GameState) (sess : Session) (p : Tetromino) : Session :=
  if snap.isGameOver || snap.isPaused then sess else moveDownBody snap sess p

/-- `moveDown()` issued on its own: the captured snapshot is the current
published state. -/
def moveDown (sess : Session) (p : Tetromino) : Session :=
  moveDownWith sess.gs sess p

/-- `moveLeft()`. -/
def moveLeft (sess : Session) : Session :=
  if sess.gs.isGameOver || sess.gs.isPaused then sess
  else
    let newPosition : Position :=
      { sess.gs.currentPosition with col := sess.gs.currentPosition.col - 1 }
    if isValidMove sess.gs.board sess.gs.currentPiece newPosition then
      { sess with gs := { sess.gs with currentPosition := newPosition } }
    else sess

/-- `moveRight()`. -/
def moveRight (sess : Session) : Session :=
  if sess.gs.isGameOver || sess.gs.isPaused then sess
  else
    let newPosition : Position :=
      { sess.gs.currentPosition with col := sess.gs.currentPosition.col + 1 }
    if isValidMove sess.gs.board sess.gs.currentPiece newPosition then
      { sess with gs := { sess.gs with currentPosition := newPosition } }
    else sess

/-- `rotate()`: commit `rotatePiece(currentPiece)` iff it is valid at the
unchanged position. -/
def rotate (sess : Session) : Session :=
  if sess.gs.isGameOver || sess.gs.isPaused then sess
  else
    let rotatedPiece := rotatePiece sess.gs.currentPiece
    if isValidMove sess.gs.board rotatedPiece sess.gs.currentPosition then
      { sess with gs := { sess.gs with currentPiece := rotatedPiece } }
    else sess

/-- The `while (isValidMove(..., row + 1)) row++` search of `hardDrop`,
with fuel.  `BOARD_HEIGHT + 1` iterations suffice for every piece that has
a filled cell and starts at a non-negative row (the only situations the
source loop terminates on at all): each advance is to a valid position,
whose rows are below `BOARD_HEIGHT`. -/
def dropSearch (board : Board) (piece : Tetromino) : Nat → Position → Position
  | 0, pos => pos
  | fuel + 1, pos =>
      if isValidMove board piece { pos with row := pos.row + 1 } then
        dropSearch board piece fuel { pos with row := pos.row + 1 }
      else pos

/-- `hardDrop()`: search the resting row, commit it, then call `moveDown()`.
The `moveDown` identifier inside `hardDrop` is the `useCallback` closure of
the current render, so it runs against the *pre-drop* snapshot
`sess.gs` — not against the just-committed resting position.  Its updaters
are applied on top of the resting-position commit. -/
def hardDrop (sess : Session) (p : Tetromino) : Session :=
  if sess.gs.isGameOver || sess.gs.isPaused then sess
  else
    let resting :=
      dropSearch sess.gs.board sess.gs.currentPiece (BOARD_HEIGHT + 1) sess.gs.currentPosition
    moveDownWith sess.gs { sess with gs := { sess.gs with currentPosition := resting } } p

/-- The `Enter` branch of `handleKeyPress`: flips `isPaused`
unconditionally (it runs before the pause gate and has no game-over
check). -/
def togglePause (sess : Session) : Session :=
  { sess with gs := { sess.gs with isPaused := !sess.gs.isPaused } }

/-- `resetGame()`: installs a fresh state.  It does not touch the
scheduled timeouts (the source never calls `clearTimeout`), so the pending
queue is carried over. -/
def resetGame (sess : Session) (p q : Tetromino) : Session :=
  { gs := initGameState p q, pending := sess.pending }

/-- The oldest scheduled `setTimeout` callback runs: it applies its
captured phase-2 values over the current state (the `...prev` spread keeps
`isPaused`) and draws a fresh `nextPiece` (oracle `p`). -/
def firePending (sess : Session) (p : Tetromino) : Session :=
  match sess.pending with
  | [] => sess
  | pc :: rest =>
      { gs := { sess.gs with
          board := pc.board
          currentPiece := pc.currentPiece
          currentPosition := pc.currentPosition
          nextPiece := p
          score := pc.score
          isGameOver := pc.isGameOver }
        pending := rest }

/-- A command issued to the engine, carrying the oracle pieces its random
draws return.  `fire` is the scheduler running the oldest pending
`setTimeout` callback. -/
inductive Cmd where
  | left
  | right
  | rot
  | pause
  | down (p : Tetromino)
  | hard (p : Tetromino)
  | reset (p q : Tetromino)
  | fire (p : Tetromino)
deriving DecidableEq

/-- Apply one command to a session. -/
def applyCmd (sess : Session) : Cmd → Session
  | .left => moveLeft sess
  | .right => moveRight sess
  | .rot => rotate sess
  | .pause => togglePause sess
  | .down p => moveDown sess p
  | .hard p => hardDrop sess p
  | .reset p q => resetGame sess p q
  | .fire p => firePending sess p

/-- A command is well-formed when every oracle piece is one of the seven
catalog pieces `getRandomTetromino` can return. -/
def cmdOK : Cmd → Prop
  | .down p | .hard p | .fire p => p ∈ tetrominoList
  | .reset p q => p ∈ tetrominoList ∧ q ∈ tetrominoList
  | _ => True

instance : DecidablePred cmdOK := by
  intro c
  cases c <;> simp only [cmdOK] <;> infer_instance

/-- One engine step: any well-formed command. -/
def Step (s t : Session) : Prop :=
  ∃ c, cmdOK c ∧ t = applyCmd s c

/-- Reachability by any finite sequence of commands. -/
def Reachable (s t : Session) : Prop :=
  Relation.ReflTransGen Step s t

/-- Run a list of commands in order. -/
def runCmds (sess : Session) (cmds : List Cmd) : Session :=
  cmds.foldl applyCmd sess

/-- Every filled cell of `piece` placed at `pos` lies within
`[0,BOARD_HEIGHT) × [0,BOARD_WIDTH)`. -/
def cellsInBounds (piece : Tetromino) (pos : Position) : Prop :=
  ∀ r < piece.shape.length, ∀ c < (piece.shape.getD r []).length,
    (piece.shape.getD r []).getD c 0 ≠ 0 →
      0 ≤ pos.row + r ∧ pos.row + r < (BOARD_HEIGHT : Int) ∧
      0 ≤ pos.col + c ∧ pos.col + c < (BOARD_WIDTH : Int)

/-- No filled cell of `piece` placed at `pos` coincides with a filled cell
of `board`. -/
def noOverlap (board : Board) (piece : Tetromino) (pos : Position) : Prop :=
  ∀ r < piece.shape.length, ∀ c < (piece.shape.getD r []).length,
    (piece.shape.getD r []).getD c 0 ≠ 0 →
      (board.getD (pos.row + r).toNat []).getD (pos.col + c).toNat 0 = 0

instance (piece : Tetromino) (pos : Position) : Decidable (cellsInBounds piece pos) := by
  unfold cellsInBounds; infer_instance

instance (board : Board) (piece : Tetromino) (pos : Position) :
    Decidable (noOverlap board piece pos) := by
  unfold noOverlap; infer_instance

/-- Shorthand for catalog pieces used by concrete runs. -/
def pieceI : Tetromino := TETROMINOES .I

/-- Shorthand for catalog pieces used by concrete runs. -/
def pieceO : Tetromino := TETROMINOES .O

/-- Shorthand for catalog pieces used by concrete runs. -/
def pieceT : Tetromino := TETROMINOES .T

/-- A concrete command sequence: drop an `I` flush left, drop an `I` at the
spawn column, then drop an `O` flush right.  The third landing completes
the bottom row, so it takes the line-clear branch of `moveDown`. -/
def lineClearCmds : List Cmd :=
  List.replicate 4 Cmd.left ++ List.replicate 19 (Cmd.down pieceO) ++
  List.replicate 19 (Cmd.down pieceO) ++ List.replicate 4 Cmd.right ++
  List.replicate 19 (Cmd.down pieceO)

/-- The session published by phase 1 of the settle at the end of
`lineClearCmds`: the merged board (bottom row full) with the landed `O`
still the current piece at its landing position, and one scheduled
phase-2 commit. -/
def lineClearWindowSession : Session :=
  runCmds (initSession pieceI pieceI) lineClearCmds

/-- The game state of the spec's line-clear example: rows 3 and 7 fully
filled, every other row empty. -/
def c7ExampleBoard : Board :=
  (List.range BOARD_HEIGHT).map fun i =>
    if i = 3 ∨ i = 7 then List.replicate BOARD_WIDTH 1 else List.replicate BOARD_WIDTH 0

/-- A board whose bottom row lacks only its two rightmost cells. -/
def c6Board : Board :=
  List.replicate 19 (List.replicate BOARD_WIDTH 0) ++ [[1, 1, 1, 1, 1, 1, 1, 1, 0, 0]]

/-- A session with an `O` piece resting at the bottom-right corner of
`c6Board`: the next `moveDown` lands it and completes the bottom row. -/
def c6Session : Session :=
  { gs := { isPaused := false, board := c6Board, currentPiece := pieceO,
            currentPosition := { row := 18, col := 8 }, nextPiece := pieceI,
            score := 0, isGameOver := false }
    pending := [] }

/-- A session with an `O` piece resting at the bottom-left corner of an
empty board: the next `moveDown` settles it without completing any row. -/
def c5LandSession : Session :=
  { gs := { isPaused := false, board := createEmptyBoard, currentPiece := pieceO,
            currentPosition := { row := 18, col := 0 }, nextPiece := pieceT,
            score := 0, isGameOver := false }
    pending := [] }

/-- Consistency of a scheduled phase-2 commit: its piece is a catalog
draw, it respawns at the spawn position, and its game-over flag is the
spawn-validity of its piece on its board.  Every `setTimeout` scheduled by
`moveDown` satisfies this by construction. -/
def PendingOK (pc : PendingCommit) : Prop :=
  pc.currentPiece ∈ tetrominoList ∧ pc.currentPosition = spawnPosition ∧
  pc.isGameOver = !(isValidMove pc.board pc.currentPiece spawnPosition)

/-- The inductive session invariant: the current piece is always in
bounds, the queued next piece is a catalog piece, every scheduled phase-2
commit is consistent, and outside the clear-animation window of a
non-game-over session the current placement is fully valid. -/
def SessionInv (s : Session) : Prop :=
  cellsInBounds s.gs.currentPiece s.gs.currentPosition ∧
  s.gs.nextPiece ∈ tetrominoList ∧
  (∀ pc ∈ s.pending, PendingOK pc) ∧
  (s.pending = [] → s.gs.isGameOver = false →
    isValidMove s.gs.board s.gs.currentPiece s.gs.currentPosition = true)

/-- The board obtained by merging the current piece at its current
position — the settle board of a landed piece. -/
def landedMerge (gs : GameState) : Board :=
  mergePieceWithBoard gs.board gs.currentPiece gs.currentPosition

/-- Claimed behavior of `moveLeft` on a running session: commit
`col - 1` exactly when `isValidMove` accepts it, else leave the session
unchanged. -/
def moveLeftSpec (sess : Session) : Prop :=
  moveLeft sess =
    if isValidMove sess.gs.board sess.gs.currentPiece
        { sess.gs.currentPosition with col := sess.gs.currentPosition.col - 1 } then
      { sess with gs := { sess.gs with currentPosition :=
          { sess.gs.currentPosition with col := sess.gs.currentPosition.col - 1 } } }
    else sess

/-- Claimed behavior of `moveRight` on a running session. -/
def moveRightSpec (sess : Session) : Prop :=
  moveRight sess =
    if isValidMove sess.gs.board sess.gs.currentPiece
        { sess.gs.currentPosition with col := sess.gs.currentPosition.col + 1 } then
      { sess with gs := { sess.gs with currentPosition :=
          { sess.gs.currentPosition with col := sess.gs.currentPosition.col + 1 } } }
    else sess

/-- Claimed behavior of `rotate` on a running session: commit the rotated
piece exactly when it is valid at the unchanged position — no wall-kick
search. -/
def rotateSpec (sess : Session) : Prop :=
  rotate sess =
    if isValidMove sess.gs.board (rotatePiece sess.gs.currentPiece)
        sess.gs.currentPosition then
      { sess with gs := { sess.gs with currentPiece := rotatePiece sess.gs.currentPiece } }
    else sess

/-- Claimed soft-drop behavior of `moveDown`: only the row advances. -/
def softDropSpec (sess : Session) (p : Tetromino) : Prop :=
  moveDown sess p =
    { sess with gs := { sess.gs with currentPosition :=
        { sess.gs.currentPosition with row := sess.gs.currentPosition.row + 1 } } }

/-- Claimed zero-line settle of `moveDown`: one immediate commit — merged
board, piece advance, fresh draw `p`, spawn position, score + 0·100, and
recomputed game-over flag. -/
def settleNoClearSpec (sess : Session) (p : Tetromino) : Prop :=
  moveDown sess p =
    { gs := { isPaused := sess.gs.isPaused
              board := landedMerge sess.gs
              currentPiece := sess.gs.nextPiece
              currentPosition := spawnPosition
              nextPiece := p
              score := sess.gs.score + 0 * 100
              isGameOver := !(isValidMove (landedMerge sess.gs) sess.gs.nextPiece spawnPosition) }
      pending := sess.pending } ∧
  spawnPosition = { row := 0, col := 4 }

/-- Claimed phase 1 of a line-clearing settle: publish the merged,
not-yet-collapsed board, touch nothing else of the game state, and
schedule exactly one phase-2 commit carrying the collapsed board, the
piece advance to the old `nextPiece` at spawn, the score plus 100 per
cleared line, and the recomputed game-over flag. -/
def settleClearPhase1Spec (sess : Session) (p : Tetromino) : Prop :=
  moveDown sess p =
    { gs := { sess.gs with board := landedMerge sess.gs }
      pending := sess.pending ++
        [{ board := (clearLines (landedMerge sess.gs)).newBoard
           currentPiece := sess.gs.nextPiece
           currentPosition := spawnPosition
           score := sess.gs.score + (clearLines (landedMerge sess.gs)).linesCleared * 100
           isGameOver := !(isValidMove (clearLines (landedMerge sess.gs)).newBoard
             sess.gs.nextPiece spawnPosition) }] }

/-- Claimed phase 2 of a line-clearing settle: when the scheduled commit
fires it publishes the collapsed board, the advanced piece at spawn, a
fresh draw `q`, the increased score, and the recomputed game-over flag,
leaving `isPaused` alone. -/
def settleClearPhase2Spec (sess : Session) (p q : Tetromino) : Prop :=
  firePending (moveDown sess p) q =
    { gs := { isPaused := sess.gs.isPaused
              board := (clearLines (landedMerge sess.gs)).newBoard
              currentPiece := sess.gs.nextPiece
              currentPosition := spawnPosition
              nextPiece := q
              score := sess.gs.score + (clearLines (landedMerge sess.gs)).linesCleared * 100
              isGameOver := !(isValidMove (clearLines (landedMerge sess.gs)).newBoard
                sess.gs.nextPiece spawnPosition) }
      pending := [] }

/-- Running well-formed commands only visits reachable sessions. -/
theorem reachable_runCmds (cmds : List Cmd) (sess : Session)
    (h : ∀ c ∈ cmds, cmdOK c) : Reachable sess (runCmds sess cmds) := by
  induction cmds generalizing sess with
  | nil => exact Relation.ReflTransGen.refl
  | cons c cs ih =>
      refine Relation.ReflTransGen.head ⟨c, h c (by simp), rfl⟩ ?_
      exact ih (applyCmd sess c) fun d hd => h d (by simp [hd])

/-- `isValidMove` accepts exactly the in-bounds, overlap-free placements. -/
theorem isValidMove_iff (board : Board) (piece : Tetromino) (pos : Position) :
    isValidMove board piece pos = true ↔
      cellsInBounds piece pos ∧ noOverlap board piece pos := by
  unfold isValidMove cellsInBounds noOverlap
  rw [decide_eq_true_eq]
  constructor
  · intro h
    refine ⟨fun r hr c hc hcell => ?_, fun r hr c hc hcell => ?_⟩
    · exact ⟨(h r hr c hc hcell).1, (h r hr c hc hcell).2.1,
        (h r hr c hc hcell).2.2.1, (h r hr c hc hcell).2.2.2.1⟩
    · exact (h r hr c hc hcell).2.2.2.2
  · intro ⟨h1, h2⟩ r hr c hc hcell
    exact ⟨(h1 r hr c hc hcell).1, (h1 r hr c hc hcell).2.1,
      (h1 r hr c hc hcell).2.2.1, (h1 r hr c hc hcell).2.2.2,
      h2 r hr c hc hcell⟩

/-- C4 counterexample: in a game-over session the pause toggle is not a
no-op — the `Enter` branch of `handleKeyPress` runs before any flag check
and flips `isPaused`. -/
theorem C4_togglePause_counterexample :
    togglePause { gs := { initGameState pieceI pieceI with isGameOver := true },
                  pending := [] } ≠
      { gs := { initGameState pieceI pieceI with isGameOver := true }, pending := [] } := by
  decide

/-- C4 (amended): `togglePause` flips `isPaused` unconditionally in every
session — including when `isGameOver` is true — and changes nothing
else. -/
theorem C4_togglePause_flips (sess : Session) :
    (togglePause sess).gs.isPaused = !sess.gs.isPaused ∧
    (togglePause sess).gs.board = sess.gs.board ∧
    (togglePause sess).gs.currentPiece = sess.gs.currentPiece ∧
    (togglePause sess).gs.currentPosition = sess.gs.currentPosition ∧
    (togglePause sess).gs.nextPiece = sess.gs.nextPiece ∧
    (togglePause sess).gs.score = sess.gs.score ∧
    (togglePause sess).gs.isGameOver = sess.gs.isGameOver ∧
    (togglePause sess).pending = sess.pending :=
  ⟨rfl, rfl, rfl, rfl, rfl, rfl, rfl, rfl⟩

/-- C9: with both flags clear, `moveLeft` / `moveRight` commit the one-step
horizontal candidate exactly when `isValidMove` accepts it, `rotate`
commits the rotated piece exactly when it is valid at the unchanged
position, and a blocked command leaves the session untouched (no error is
possible: the commands are total functions). -/
theorem C9_guarded_side_commands (sess : Session)
    (hgo : sess.gs.isGameOver = false) (hip : sess.gs.isPaused = false) :
    moveLeftSpec sess ∧ moveRightSpec sess ∧ rotateSpec sess := by
  unfold moveLeftSpec moveRightSpec rotateSpec moveLeft moveRight rotate
  rw [hgo, hip]
  exact ⟨rfl, rfl, rfl⟩

/-- C9 witness at a concrete session. -/
theorem C9_guarded_side_commands_witness :
    (initSession pieceI pieceI).gs.isGameOver = false ∧
    (initSession pieceI pieceI).gs.isPaused = false ∧
    (moveLeftSpec (initSession pieceI pieceI) ∧ moveRightSpec (initSession pieceI pieceI) ∧
      rotateSpec (initSession pieceI pieceI)) :=
  ⟨rfl, rfl, C9_guarded_side_commands (initSession pieceI pieceI) rfl rfl⟩

/-- C10: in every session — flags set or not — `moveLeft`, `moveRight` and
`rotate` preserve `board`, `nextPiece`, `score`, `isGameOver`, `isPaused`
and the pending queue; the horizontal moves also preserve `currentPiece`,
and `rotate` also preserves `currentPosition`. -/
theorem C10_side_commands_frame (sess : Session) :
    ((moveLeft sess).gs.board = sess.gs.board ∧
     (moveLeft sess).gs.nextPiece = sess.gs.nextPiece ∧
     (moveLeft sess).gs.score = sess.gs.score ∧
     (moveLeft sess).gs.isGameOver = sess.gs.isGameOver ∧
     (moveLeft sess).gs.isPaused = sess.gs.isPaused ∧
     (moveLeft sess).gs.currentPiece = sess.gs.currentPiece ∧
     (moveLeft sess).pending = sess.pending) ∧
    ((moveRight sess).gs.board = sess.gs.board ∧
     (moveRight sess).gs.nextPiece = sess.gs.nextPiece ∧
     (moveRight sess).gs.score = sess.gs.score ∧
     (moveRight sess).gs.isGameOver = sess.gs.isGameOver ∧
     (moveRight sess).gs.isPaused = sess.gs.isPaused ∧
     (moveRight sess).gs.currentPiece = sess.gs.currentPiece ∧
     (moveRight sess).pending = sess.pending) ∧
    ((rotate sess).gs.board = sess.gs.board ∧
     (rotate sess).gs.nextPiece = sess.gs.nextPiece ∧
     (rotate sess).gs.score = sess.gs.score ∧
     (rotate sess).gs.isGameOver = sess.gs.isGameOver ∧
     (rotate sess).gs.isPaused = sess.gs.isPaused ∧
     (rotate sess).gs.currentPosition = sess.gs.currentPosition ∧
     (rotate sess).pending = sess.pending) := by
  refine ⟨?_, ?_, ?_⟩
  · unfold moveLeft
    split
    · exact ⟨rfl, rfl, rfl, rfl, rfl, rfl, rfl⟩
    · dsimp only
      split <;> exact ⟨rfl, rfl, rfl, rfl, rfl, rfl, rfl⟩
  · unfold moveRight
    split
    · exact ⟨rfl, rfl, rfl, rfl, rfl, rfl, rfl⟩
    · dsimp only
      split <;> exact ⟨rfl, rfl, rfl, rfl, rfl, rfl, rfl⟩
  · unfold rotate
    split
    · exact ⟨rfl, rfl, rfl, rfl, rfl, rfl, rfl⟩
    · dsimp only
      split <;> exact ⟨rfl, rfl, rfl, rfl, rfl, rfl, rfl⟩

/-- `mapIdxFrom` preserves length. -/
theorem length_mapIdxFrom (f : Nat → α → β) (i : Nat) (l : List α) :
    (mapIdxFrom f i l).length = l.length := by
  induction l generalizing i with
  | nil => rfl
  | cons a as ih => simp [mapIdxFrom, ih]

/-- `mergePieceWithBoard` preserves the number of rows. -/
theorem length_mergePieceWithBoard (board : Board) (piece : Tetromino) (pos : Position) :
    (mergePieceWithBoard board piece pos).length = board.length :=
  length_mapIdxFrom _ _ _

/-- On a full-height board with no full row, `clearLines` keeps the board
and reports nothing cleared. -/
theorem clearLines_no_full (b : Board) (hlen : b.length = BOARD_HEIGHT)
    (h : (clearLines b).clearedRows = []) :
    clearLines b = { newBoard := b, linesCleared := 0, clearedRows := [] } := by
  have hmem : ∀ i ∈ List.range b.length, ¬ (isFullRow (b.getD i []) = true) := by
    have := List.filter_eq_nil_iff.mp h
    simpa using this
  have hall : ∀ row ∈ b, (!(isFullRow row)) = true := by
    intro row hrow
    rcases List.mem_iff_getElem.mp hrow with ⟨i, hi, hrow'⟩
    have hfi := hmem i (List.mem_range.mpr hi)
    rw [List.getD_eq_getElem b [] hi, hrow'] at hfi
    simpa using hfi
  have hkept : b.filter (fun row => !(isFullRow row)) = b := List.filter_eq_self.mpr hall
  have h2 : BOARD_HEIGHT - b.length = 0 := by simp [hlen]
  unfold clearLines
  rw [hkept]
  dsimp only
  rw [h2]
  simp only [List.replicate_zero, List.nil_append]
  exact congrArg (ClearResult.mk b 0) h

/-- C5: with both flags clear, `moveDown` on a non-landed piece advances
the row by one and changes nothing else; on a landed piece whose merge
completes no full row it performs the single immediate settle commit
(merged board, piece advance, fresh draw, spawn reset, score + 0·100,
recomputed game-over flag). -/
theorem C5_moveDown_transitions (sess : Session) (p : Tetromino)
    (hgo : sess.gs.isGameOver = false) (hip : sess.gs.isPaused = false)
    (hlen : sess.gs.board.length = BOARD_HEIGHT) :
    (isValidMove sess.gs.board sess.gs.currentPiece
        { sess.gs.currentPosition with row := sess.gs.currentPosition.row + 1 } = true →
      softDropSpec sess p) ∧
    (isValidMove sess.gs.board sess.gs.currentPiece
        { sess.gs.currentPosition with row := sess.gs.currentPosition.row + 1 } = false →
      (clearLines (landedMerge sess.gs)).clearedRows = [] →
      settleNoClearSpec sess p) := by
  constructor
  · intro hvalid
    unfold softDropSpec moveDown moveDownWith moveDownBody
    rw [hgo, hip]
    simp only [Bool.or_self, Bool.false_or, if_neg (Bool.false_ne_true)]
    rw [if_pos hvalid]
  · intro hinvalid hnc
    have hmlen : (landedMerge sess.gs).length = BOARD_HEIGHT := by
      rw [landedMerge, length_mergePieceWithBoard, hlen]
    have hcl := clearLines_no_full (landedMerge sess.gs) hmlen hnc
    unfold settleNoClearSpec moveDown moveDownWith moveDownBody
    rw [hgo, hip]
    simp only [Bool.or_self, Bool.false_or, if_neg (Bool.false_ne_true)]
    rw [if_neg (by rw [hinvalid]; exact Bool.false_ne_true)]
    refine ⟨?_, by decide⟩
    rw [show mergePieceWithBoard sess.gs.board sess.gs.currentPiece sess.gs.currentPosition =
          landedMerge sess.gs from rfl, hcl]
    simp [hgo, hip]

/-- C5 witness: a soft drop on a fresh session and a zero-line settle of
an `O` resting at the bottom-left corner. -/
theorem C5_moveDown_transitions_witness :
    softDropSpec (initSession pieceO pieceO) pieceO ∧ settleNoClearSpec c5LandSession pieceO :=
  ⟨(C5_moveDown_transitions (initSession pieceO pieceO) pieceO rfl rfl (by decide)).1 (by decide),
   (C5_moveDown_transitions c5LandSession pieceO rfl rfl (by decide)).2 (by decide) (by decide)⟩

/-- C6: with both flags clear and no commit already pending, a landing
whose merge completes at least one row publishes the merged uncollapsed
board synchronously (touching nothing else) and schedules exactly one
phase-2 commit, which on firing publishes the collapsed board, the piece
advance at spawn, a fresh draw, score + 100 per cleared line, and the
recomputed game-over flag; the scheduling delay constant is 800ms. -/
theorem C6_two_phase_settle (sess : Session) (p q : Tetromino)
    (hgo : sess.gs.isGameOver = false) (hip : sess.gs.isPaused = false)
    (hinvalid : isValidMove sess.gs.board sess.gs.currentPiece
        { sess.gs.currentPosition with row := sess.gs.currentPosition.row + 1 } = false)
    (hclear : (clearLines (landedMerge sess.gs)).clearedRows ≠ [])
    (hpend : sess.pending = []) :
    settleClearPhase1Spec sess p ∧ settleClearPhase2Spec sess p q ∧ phase2DelayMs = 800 := by
  have hlen :
      (clearLines (mergePieceWithBoard sess.gs.board sess.gs.currentPiece
        sess.gs.currentPosition)).clearedRows.length > 0 :=
    List.length_pos.mpr hclear
  have h1 : settleClearPhase1Spec sess p := by
    unfold settleClearPhase1Spec moveDown moveDownWith moveDownBody
    rw [hgo, hip]
    simp only [Bool.or_self, if_neg (Bool.false_ne_true)]
    rw [if_neg (by rw [hinvalid]; exact Bool.false_ne_true)]
    rw [if_pos hlen]
    rfl
  refine ⟨h1, ?_, rfl⟩
  unfold settleClearPhase2Spec
  rw [h1]
  unfold firePending
  simp only [hpend, List.nil_append]

/-- C6 witness: an `O` landing at the bottom-right corner of a board whose
bottom row lacks exactly its two rightmost cells. -/
theorem C6_two_phase_settle_witness :
    settleClearPhase1Spec c6Session pieceT ∧ settleClearPhase2Spec c6Session pieceT pieceO ∧
      phase2DelayMs = 800 :=
  C6_two_phase_settle c6Session pieceT pieceO rfl rfl (by decide) (by decide) rfl

/-- A filter and its complementary filter split the length of a list. -/
theorem length_filter_add_length_filter_not (p : α → Bool) (l : List α) :
    (l.filter p).length + (l.filter fun a => !(p a)).length = l.length := by
  induction l with
  | nil => rfl
  | cons a as ih =>
      cases h : p a <;> simp [List.filter_cons, h] <;> omega

/-- `isFullRow` decides "every cell equals 1". -/
theorem isFullRow_decide (row : List Nat) :
    isFullRow row = decide (∀ cell ∈ row, cell = 1) := by
  rw [Bool.eq_iff_iff]
  simp [isFullRow, List.all_eq_true]

/-- C7: on a full-height board, `clearLines` reports the ascending list of
the indices of the all-ones rows of the input, counts exactly those rows,
and returns that many all-zero rows prepended above the non-full rows of
the input in their original order, restoring a `BOARD_HEIGHT`-row grid. -/
theorem C7_clearLines_correct (board : Board)
    (hlen : board.length = BOARD_HEIGHT)
    (_hw : ∀ row ∈ board, row.length = BOARD_WIDTH) :
    List.Pairwise (· < ·) (clearLines board).clearedRows ∧
    (∀ i, i ∈ (clearLines board).clearedRows ↔
      i < BOARD_HEIGHT ∧ ∀ cell ∈ board.getD i [], cell = 1) ∧
    (clearLines board).linesCleared =
      (board.filter fun row => decide (∀ cell ∈ row, cell = 1)).length ∧
    (clearLines board).newBoard =
      List.replicate (clearLines board).linesCleared (List.replicate BOARD_WIDTH 0) ++
        (board.filter fun row => !(decide (∀ cell ∈ row, cell = 1))) ∧
    (clearLines board).newBoard.length = BOARD_HEIGHT := by
  have hcr : (clearLines board).clearedRows =
      (List.range board.length).filter fun i => isFullRow (board.getD i []) := rfl
  have hkept : (board.filter fun row => !(isFullRow row)) =
      board.filter fun row => !(decide (∀ cell ∈ row, cell = 1)) :=
    List.filter_congr fun row _ => by rw [isFullRow_decide]
  have hfull : (board.filter fun row => isFullRow row) =
      board.filter fun row => decide (∀ cell ∈ row, cell = 1) :=
    List.filter_congr fun row _ => by rw [isFullRow_decide]
  have hsum := length_filter_add_length_filter_not isFullRow board
  have hlc : (clearLines board).linesCleared =
      (board.filter fun row => decide (∀ cell ∈ row, cell = 1)).length := by
    have h1 : (clearLines board).linesCleared =
        BOARD_HEIGHT - (board.filter fun row => !(isFullRow row)).length := rfl
    rw [h1, ← hfull]
    have : (board.filter fun row => isFullRow row).length +
        (board.filter fun row => !(isFullRow row)).length = BOARD_HEIGHT := by
      rw [← hlen]
      exact hsum
    omega
  refine ⟨?_, ?_, hlc, ?_, ?_⟩
  · rw [hcr]
    exact List.Pairwise.filter _ (List.pairwise_lt_range _)
  · intro i
    rw [hcr, List.mem_filter, List.mem_range, hlen, isFullRow_decide, decide_eq_true_eq]
  · have hnb : (clearLines board).newBoard =
        List.replicate (clearLines board).linesCleared (List.replicate BOARD_WIDTH 0) ++
          (board.filter fun row => !(isFullRow row)) := rfl
    rw [hnb, hkept]
  · have hnb : (clearLines board).newBoard =
        List.replicate (clearLines board).linesCleared (List.replicate BOARD_WIDTH 0) ++
          (board.filter fun row => !(isFullRow row)) := rfl
    rw [hnb, List.length_append, List.length_replicate, hlc, ← hfull]
    have : (board.filter fun row => isFullRow row).length +
        (board.filter fun row => !(isFullRow row)).length = BOARD_HEIGHT := by
      rw [← hlen]
      exact hsum
    omega

/-- C7 witness: the spec's example — rows 3 and 7 full, all others
empty. -/
theorem C7_clearLines_correct_witness :
    List.Pairwise (· < ·) (clearLines c7ExampleBoard).clearedRows ∧
    (∀ i, i ∈ (clearLines c7ExampleBoard).clearedRows ↔
      i < BOARD_HEIGHT ∧ ∀ cell ∈ c7ExampleBoard.getD i [], cell = 1) ∧
    (clearLines c7ExampleBoard).linesCleared =
      (c7ExampleBoard.filter fun row => decide (∀ cell ∈ row, cell = 1)).length ∧
    (clearLines c7ExampleBoard).newBoard =
      List.replicate (clearLines c7ExampleBoard).linesCleared (List.replicate BOARD_WIDTH 0) ++
        (c7ExampleBoard.filter fun row => !(decide (∀ cell ∈ row, cell = 1))) ∧
    (clearLines c7ExampleBoard).newBoard.length = BOARD_HEIGHT :=
  C7_clearLines_correct c7ExampleBoard (by decide) (by decide)

/-- C8: on any square shape, `rotatePiece` keeps type and color, returns a
square shape of the same size satisfying `newShape[c][N-1-r] = shape[r][c]`
(the 90° clockwise transform), and four applications restore the shape of
every catalog piece. -/
theorem C8_rotatePiece_clockwise (piece : Tetromino) (N : Nat)
    (hlen : piece.shape.length = N)
    (hsq : ∀ row ∈ piece.shape, row.length = N) :
    (rotatePiece piece).type = piece.type ∧
    (rotatePiece piece).color = piece.color ∧
    (rotatePiece piece).shape.length = N ∧
    (∀ row ∈ (rotatePiece piece).shape, row.length = N) ∧
    (∀ r < N, ∀ c < N,
      ((rotatePiece piece).shape.getD c []).getD (N - 1 - r) 0 =
        (piece.shape.getD r []).getD c 0) ∧
    (∀ t ∈ tetrominoList,
      (rotatePiece (rotatePiece (rotatePiece (rotatePiece t)))).shape = t.shape) := by
  have hhead : (piece.shape.headD []).length = N := by
    cases hs : piece.shape with
    | nil =>
        rw [hs] at hlen
        simpa using hlen
    | cons a as =>
        have ha : a ∈ piece.shape := by
          rw [hs]
          exact List.mem_cons_self a as
        simpa using hsq a ha
  have hrl : (rotatePiece piece).shape.length = N := by
    simp only [rotatePiece, List.length_map, List.length_range]
    exact hhead
  refine ⟨rfl, rfl, hrl, ?_, ?_, by decide⟩
  · intro row hrow
    simp only [rotatePiece] at hrow
    rcases List.mem_map.mp hrow with ⟨i, _, hi⟩
    rw [← hi]
    simp [hlen]
  · intro r hr c hc
    have hc' : c < (rotatePiece piece).shape.length := by
      rw [hrl]
      exact hc
    rw [List.getD_eq_getElem _ [] hc']
    have hmap : (rotatePiece piece).shape[c] =
        (piece.shape.map fun row => row.getD c 0).reverse := by
      simp only [rotatePiece]
      rw [List.getElem_map, List.getElem_range]
    rw [hmap]
    have hrev : (N - 1 - r) < ((piece.shape.map fun row => row.getD c 0).reverse).length := by
      rw [List.length_reverse, List.length_map, hlen]
      omega
    rw [List.getD_eq_getElem _ 0 hrev, List.getElem_reverse, List.getElem_map]
    have hidx : (piece.shape.map fun row => row.getD c 0).length - 1 - (N - 1 - r) = r := by
      rw [List.length_map, hlen]
      omega
    simp only [hidx]
    have hr' : r < piece.shape.length := by
      rw [hlen]
      exact hr
    rw [List.getD_eq_getElem _ [] hr']

/-- C8 witness: the `T` piece (3×3 shape). -/
theorem C8_rotatePiece_clockwise_witness :
    (rotatePiece pieceT).type = pieceT.type ∧
    (rotatePiece pieceT).color = pieceT.color ∧
    (rotatePiece pieceT).shape.length = 3 ∧
    (∀ row ∈ (rotatePiece pieceT).shape, row.length = 3) ∧
    (∀ r < 3, ∀ c < 3,
      ((rotatePiece pieceT).shape.getD c []).getD (3 - 1 - r) 0 =
        (pieceT.shape.getD r []).getD c 0) ∧
    (∀ t ∈ tetrominoList,
      (rotatePiece (rotatePiece (rotatePiece (rotatePiece t)))).shape = t.shape) :=
  C8_rotatePiece_clockwise pieceT 3 (by decide) (by decide)

/-- C1: the claim is the stated intent (and `hardDrop`'s own doc comment:
"Instantly drops the current piece to the lowest possible position"), but
the code's inner `moveDown()` runs against the pre-drop snapshot, so its
soft-drop commit overwrites the resting-position commit.  On a fresh
session with an `O` at spawn over an empty board, the resting row is 18
and nineteen `moveDown()` calls settle the piece there (the board gains
merged cells and the position respawns), yet a single `hardDrop()` leaves
the piece at row 1, the board empty, the queue empty, and nothing
settled. -/
theorem C1_hardDrop_is_single_soft_drop :
    dropSearch (initSession pieceO pieceO).gs.board (initSession pieceO pieceO).gs.currentPiece
      (BOARD_HEIGHT + 1) (initSession pieceO pieceO).gs.currentPosition =
      { row := 18, col := 4 } ∧
    hardDrop (initSession pieceO pieceO) pieceO =
      { gs := { (initSession pieceO pieceO).gs with currentPosition := { row := 1, col := 4 } }
        pending := [] } ∧
    (runCmds (initSession pieceO pieceO) (List.replicate 18 (Cmd.down pieceO))).gs.currentPosition =
      { row := 18, col := 4 } ∧
    (runCmds (initSession pieceO pieceO) (List.replicate 19 (Cmd.down pieceO))).gs.currentPosition =
      spawnPosition ∧
    (runCmds (initSession pieceO pieceO) (List.replicate 19 (Cmd.down pieceO))).gs.board ≠
      createEmptyBoard := by
  refine ⟨by decide, by decide, by decide, by decide, by decide⟩

set_option maxRecDepth 20000 in
/-- C2 counterexample: the session reached by `lineClearCmds` — the phase-1
window published after the third landing completes the bottom row — is
reachable from an initial session, yet its current piece (the landed `O`
at row 18, column 8) coincides with filled cells of the published merged
board, violating the claimed invariant. -/
theorem C2_invariant_counterexample :
    (∃ p q, p ∈ tetrominoList ∧ q ∈ tetrominoList ∧
      Reachable (initSession p q) lineClearWindowSession) ∧
    ¬ (cellsInBounds lineClearWindowSession.gs.currentPiece
        lineClearWindowSession.gs.currentPosition ∧
       noOverlap lineClearWindowSession.gs.board lineClearWindowSession.gs.currentPiece
        lineClearWindowSession.gs.currentPosition) := by
  constructor
  · exact ⟨pieceI, pieceI, by decide, by decide,
      reachable_runCmds lineClearCmds (initSession pieceI pieceI) (by decide)⟩
  · intro h
    exact absurd h.2 (by decide)

set_option maxRecDepth 20000 in
/-- C3: `resetGame` installs a fresh state but never cancels the scheduled
phase-2 timeout (the source has no `clearTimeout`).  In the reachable
phase-1 window session, a reset leaves the stale commit queued, and when
it fires it overwrites the freshly reset session: the board is no longer
the empty board, the score jumps from 0 to 100, and the current piece and
game-over flag are replaced by the stale settle's values. -/
theorem C3_stale_phase2_clobbers_reset :
    (∃ p q, p ∈ tetrominoList ∧ q ∈ tetrominoList ∧
      Reachable (initSession p q) lineClearWindowSession) ∧
    lineClearWindowSession.pending ≠ [] ∧
    (resetGame lineClearWindowSession pieceI pieceI).gs = (initSession pieceI pieceI).gs ∧
    (resetGame lineClearWindowSession pieceI pieceI).pending = lineClearWindowSession.pending ∧
    (firePending (resetGame lineClearWindowSession pieceI pieceI) pieceO).gs.score = 100 ∧
    (firePending (resetGame lineClearWindowSession pieceI pieceI) pieceO).gs.board ≠
      createEmptyBoard ∧
    (firePending (resetGame lineClearWindowSession pieceI pieceI) pieceO).gs.currentPiece =
      pieceO := by
  refine ⟨⟨pieceI, pieceI, by decide, by decide,
      reachable_runCmds lineClearCmds (initSession pieceI pieceI) (by decide)⟩,
    by decide, by decide, by decide, by decide, by decide, by decide⟩

/-- Every catalog piece fits inside the board at the spawn position. -/
theorem catalog_spawn_bounds : ∀ t ∈ tetrominoList, cellsInBounds t spawnPosition := by
  decide

/-- Every catalog piece is a valid placement at spawn on an empty board. -/
theorem catalog_spawn_valid :
    ∀ t ∈ tetrominoList, isValidMove createEmptyBoard t spawnPosition = true := by
  decide

/-- The `hardDrop` position search either stays put or stops at a
position it has validated. -/
theorem dropSearch_eq_or_valid (board : Board) (piece : Tetromino) (fuel : Nat)
    (pos : Position) :
    dropSearch board piece fuel pos = pos ∨
    isValidMove board piece (dropSearch board piece fuel pos) = true := by
  induction fuel generalizing pos with
  | zero => exact Or.inl rfl
  | succ n ih =>
      unfold dropSearch
      split
      · rename_i h
        rcases ih { pos with row := pos.row + 1 } with heq | hval
        · rw [heq]
          exact Or.inr h
        · exact Or.inr hval
      · exact Or.inl rfl

/-- Invariant preservation through the body of `moveDown`, run with
snapshot `snap` over a session whose published position is `pos'` (equal
to the snapshot's position for a plain `moveDown`, or the drop-search
result inside `hardDrop`). -/
theorem moveDownBody_inv (snap : GameState) (pnd : List PendingCommit) (pos' : Position)
    (p : Tetromino) (hp : p ∈ tetrominoList)
    (hnext : snap.nextPiece ∈ tetrominoList)
    (hpend : ∀ pc ∈ pnd, PendingOK pc)
    (hbounds : cellsInBounds snap.currentPiece pos') :
    SessionInv (moveDownBody snap ⟨{ snap with currentPosition := pos' }, pnd⟩ p) := by
  unfold moveDownBody
  dsimp only
  split
  · rename_i hvalid
    refine ⟨((isValidMove_iff _ _ _).mp hvalid).1, hnext, hpend, fun _ _ => hvalid⟩
  · rename_i hinvalid
    split
    · rename_i hclear
      refine ⟨hbounds, hnext, ?_, ?_⟩
      · intro pc hpc
        rcases List.mem_append.mp hpc with hmem | hmem
        · exact hpend pc hmem
        · rw [List.mem_singleton] at hmem
          subst hmem
          exact ⟨hnext, rfl, rfl⟩
      · intro habs
        exact absurd habs (by simp)
    · refine ⟨catalog_spawn_bounds snap.nextPiece hnext, hp, hpend, ?_⟩
      intro _ hgo
      cases hv : isValidMove
          (clearLines (mergePieceWithBoard snap.board snap.currentPiece
            snap.currentPosition)).newBoard snap.nextPiece spawnPosition with
      | true => rfl
      | false =>
          rw [hv] at hgo
          simp at hgo

/-- Every engine step preserves the session invariant. -/
theorem inv_step (s t : Session) (hstep : Step s t) (hinv : SessionInv s) : SessionInv t := by
  obtain ⟨c, hok, rfl⟩ := hstep
  cases c with
  | left =>
      simp only [applyCmd]
      unfold moveLeft
      split
      · exact hinv
      · dsimp only
        split
        · rename_i hv
          exact ⟨((isValidMove_iff _ _ _).mp hv).1, hinv.2.1, hinv.2.2.1, fun _ _ => hv⟩
        · exact hinv
  | right =>
      simp only [applyCmd]
      unfold moveRight
      split
      · exact hinv
      · dsimp only
        split
        · rename_i hv
          exact ⟨((isValidMove_iff _ _ _).mp hv).1, hinv.2.1, hinv.2.2.1, fun _ _ => hv⟩
        · exact hinv
  | rot =>
      simp only [applyCmd]
      unfold rotate
      split
      · exact hinv
      · dsimp only
        split
        · rename_i hv
          exact ⟨((isValidMove_iff _ _ _).mp hv).1, hinv.2.1, hinv.2.2.1, fun _ _ => hv⟩
        · exact hinv
  | pause => exact hinv
  | down p =>
      simp only [applyCmd]
      unfold moveDown moveDownWith
      split
      · exact hinv
      · exact moveDownBody_inv s.gs s.pending s.gs.currentPosition p hok hinv.2.1
          hinv.2.2.1 hinv.1
  | hard p =>
      simp only [applyCmd]
      unfold hardDrop moveDownWith
      split
      · exact hinv
      · refine moveDownBody_inv s.gs s.pending _ p hok hinv.2.1 hinv.2.2.1 ?_
        rcases dropSearch_eq_or_valid s.gs.board s.gs.currentPiece (BOARD_HEIGHT + 1)
            s.gs.currentPosition with heq | hval
        · rw [heq]
          exact hinv.1
        · exact ((isValidMove_iff _ _ _).mp hval).1
  | reset p q =>
      exact ⟨catalog_spawn_bounds p hok.1, hok.2, hinv.2.2.1,
        fun _ _ => catalog_spawn_valid p hok.1⟩
  | fire p =>
      simp only [applyCmd]
      unfold firePending
      cases hpnd : s.pending with
      | nil => exact hinv
      | cons pc rest =>
          have hpc := hinv.2.2.1 pc (by rw [hpnd]; exact List.mem_cons_self pc rest)
          refine ⟨?_, hok, ?_, ?_⟩
          · dsimp only
            rw [hpc.2.1]
            exact catalog_spawn_bounds pc.currentPiece hpc.1
          · intro pc' hmem
            exact hinv.2.2.1 pc' (by rw [hpnd]; exact List.mem_cons_of_mem pc hmem)
          · intro _ hgo
            dsimp only at hgo ⊢
            rw [hpc.2.1]
            rw [hpc.2.2] at hgo
            cases hv : isValidMove pc.board pc.currentPiece spawnPosition with
            | true => rfl
            | false =>
                rw [hv] at hgo
                simp at hgo

/-- A fresh session satisfies the invariant. -/
theorem initSession_inv (p q : Tetromino) (hp : p ∈ tetrominoList)
    (hq : q ∈ tetrominoList) : SessionInv (initSession p q) :=
  ⟨catalog_spawn_bounds p hp, hq, fun pc hpc => absurd hpc (List.not_mem_nil pc),
   fun _ _ => catalog_spawn_valid p hp⟩

/-- The invariant holds in every reachable session. -/
theorem reachable_inv (p q : Tetromino) (s : Session)
    (hp : p ∈ tetrominoList) (hq : q ∈ tetrominoList)
    (h : Reachable (initSession p q) s) : SessionInv s := by
  induction h with
  | refl => exact initSession_inv p q hp hq
  | tail _ hstep ih => exact inv_step _ _ hstep ih

/-- C2 (amended): in every session reachable from an initial session, the
filled cells of the current piece at the current position always lie
within `[0,BOARD_HEIGHT)×[0,BOARD_WIDTH)`; and whenever no phase-2 commit
is pending (i.e. outside the phase-1 clear-animation window) and the
session is not game over, they additionally coincide with no filled board
cell.  During the phase-1 window the claim's overlap half fails by
construction (the merged board contains the landed piece's own cells),
and in a game-over state the spawned piece's overlap is exactly what set
the flag. -/
theorem C2_reachable_bounds_invariant (p q : Tetromino) (s : Session)
    (hp : p ∈ tetrominoList) (hq : q ∈ tetrominoList)
    (hreach : Reachable (initSession p q) s) :
    cellsInBounds s.gs.currentPiece s.gs.currentPosition ∧
    (s.pending = [] → s.gs.isGameOver = false →
      cellsInBounds s.gs.currentPiece s.gs.currentPosition ∧
      noOverlap s.gs.board s.gs.currentPiece s.gs.currentPosition) := by
  have hinv := reachable_inv p q s hp hq hreach
  exact ⟨hinv.1, fun h1 h2 => (isValidMove_iff _ _ _).mp (hinv.2.2.2 h1 h2)⟩

/-- C2 witness: the initial session itself. -/
theorem C2_reachable_bounds_invariant_witness :
    pieceI ∈ tetrominoList ∧
    (cellsInBounds (initSession pieceI pieceI).gs.currentPiece
      (initSession pieceI pieceI).gs.currentPosition ∧
    ((initSession pieceI pieceI).pending = [] →
      (initSession pieceI pieceI).gs.isGameOver = false →
      cellsInBounds (initSession pieceI pieceI).gs.currentPiece
        (initSession pieceI pieceI).gs.currentPosition ∧
      noOverlap (initSession pieceI pieceI).gs.board
        (initSession pieceI pieceI).gs.currentPiece
        (initSession pieceI pieceI).gs.currentPosition)) :=
  ⟨by decide, C2_reachable_bounds_invariant pieceI pieceI (initSession pieceI pieceI)
    (by decide) (by decide) Relation.ReflTransGen.refl⟩
